import Mathlib

/-!
Verification of the repoChat repository-ingestion pipeline and search layer.

The definitions below are a shallow embedding of the JavaScript source:
`src/services/githubService.js` (URL identity extraction, file fetching,
bounded directory walk, file prioritization, snapshot assembly) and the
search module (`searchInFiles`, `getContextLines`, `isImportantFile`).
Strings are modelled as Lean `String` (sequences of characters); JavaScript
`substring`, `includes`, `toLowerCase`, `split`, `trim` are modelled by the
corresponding character-level operations.  Asynchronous fetches are modelled
by embedding each fetch's result in the input data: a file node carries the
result that `getFileContent` would return for it (`none` for a failed or
refused fetch), and a directory node carries the listing that
`getDirectoryContents` would return.
-/

namespace RepoChat

/-- Literal character-by-character match: `litMatch p s` is true when `p` is a
prefix of `s`. Used to model regex literal matching and `String.includes`. -/
def litMatch : List Char → List Char → Bool
  | [], _ => true
  | _ :: _, [] => false
  | p :: ps, c :: cs => p == c && litMatch ps cs

/-- `hasSub s pat` is true when `pat` occurs as a contiguous substring of `s`.
Models JavaScript `s.includes(pat)` at character granularity. -/
def hasSub : List Char → List Char → Bool
  | [], pat => pat.isEmpty
  | c :: cs, pat => litMatch pat (c :: cs) || hasSub cs pat

/-- Models JavaScript `s.includes(sub)`. -/
def strIncludes (s sub : String) : Bool := hasSub s.data sub.data

/-- Models JavaScript `s.substring(0, n)`: the first `n` characters of `s`. -/
def strTake (s : String) (n : Nat) : String := ⟨s.data.take n⟩

/-- Models JavaScript `s.toLowerCase()` (character-wise lowering). -/
def toLowerStr (s : String) : String := ⟨s.data.map Char.toLower⟩

/-- Models JavaScript `s.toUpperCase()` (character-wise raising). -/
def toUpperStr (s : String) : String := ⟨s.data.map Char.toUpper⟩

/-- `endsWithL s suf` is true when `suf` is a suffix of `s` (character lists). -/
def endsWithL (s suf : List Char) : Bool := litMatch suf.reverse s.reverse

/-- Models JavaScript `s.endsWith(suf)`. -/
def strEndsWith (s suf : String) : Bool := endsWithL s.data suf.data

/-- Models JavaScript `s.startsWith(pre)`. -/
def strStartsWith (s pre : String) : Bool := litMatch pre.data s.data

/-- Models JavaScript `s.trim()`: remove leading and trailing whitespace. -/
def trimStr (s : String) : String :=
  ⟨((s.data.dropWhile Char.isWhitespace).reverse.dropWhile
      Char.isWhitespace).reverse⟩

/-- Models JavaScript `s.split(sep)` for a one-character separator. -/
def splitOnChar (sep : Char) : List Char → List (List Char)
  | [] => [[]]
  | c :: cs =>
    if c == sep then [] :: splitOnChar sep cs
    else
      match splitOnChar sep cs with
      | [] => [[c]]
      | seg :: rest => (c :: seg) :: rest

/-- Models JavaScript `s.split('\n')`. -/
def splitLines (s : String) : List String :=
  (splitOnChar '\n' s.data).map String.mk

/-- Stable insertion: place `x` before the first element that is not
strictly below it, so that elements equal to `x` under the preorder keep
their original relative order. -/
def insertStable (le : α → α → Bool) (x : α) : List α → List α
  | [] => [x]
  | y :: ys => if le y x && !le x y then y :: insertStable le x ys else x :: y :: ys

/-- Stable sort by the boolean preorder `le`. `Array.prototype.sort` with a
consistent comparator is required by ECMAScript to produce exactly the
stable sort of its input, which this computes. -/
def stableSort (le : α → α → Bool) : List α → List α
  | [] => []
  | x :: xs => insertStable le x (stableSort le xs)

/-- Number of `/` characters in a path string. -/
def countSlash (s : String) : Nat := s.data.count '/'

/-! ## Identity extraction (`extractRepoInfo`, githubService.js lines 6-15)

The source matches the regex `github\.com\/([^\/]+)\/([^\/]+)` against the
URL (leftmost match), then strips a trailing `.git` and a trailing `/` from
the second capture group. -/

/-- A `{owner, repo}` repository identity. -/
structure RepoId where
  owner : String
  repo : String
deriving DecidableEq

/-- The characters of the literal part `github.com/` of the regex. -/
def ghPat : List Char := "github.com/".data

/-- Attempt to match the regex `github\.com\/([^\/]+)\/([^\/]+)` at the start
of `cs`: the literal `github.com/`, then a nonempty run of non-`/` characters
(first capture), then `/`, then a nonempty run of non-`/` characters
(second capture, greedy). -/
def matchRepoAt (cs : List Char) : Option (List Char × List Char) :=
  if litMatch ghPat cs then
    let rest := cs.drop ghPat.length
    let seg1 := rest.takeWhile (fun c => c != '/')
    if seg1.isEmpty then none else
      match rest.drop seg1.length with
      | '/' :: rest3 =>
        let seg2 := rest3.takeWhile (fun c => c != '/')
        if seg2.isEmpty then none else some (seg1, seg2)
      | _ => none
  else none

/-- Leftmost match of the repository regex: try `matchRepoAt` at each
position from the left. Models `url.match(...)` for an unanchored regex. -/
def findRepoMatch : List Char → Option (List Char × List Char)
  | [] => none
  | c :: cs =>
    match matchRepoAt (c :: cs) with
    | some r => some r
    | none => findRepoMatch cs

/-- Models `repo.replace(/\.git$/, '')`: remove one trailing `.git`. -/
def dropGitSuffix (r : List Char) : List Char :=
  if endsWithL r ".git".data then r.take (r.length - 4) else r

/-- Models `repo.replace(/\/$/, '')`: remove one trailing `/`. -/
def dropSlashSuffix (r : List Char) : List Char :=
  if endsWithL r "/".data then r.take (r.length - 1) else r

/-- `extractRepoInfo` (githubService.js lines 6-15): leftmost regex match,
then normalize the repo segment by stripping trailing `.git` and `/`. -/
def extractRepoInfo (url : String) : Option RepoId :=
  match findRepoMatch url.data with
  | some (o, r) => some ⟨⟨o⟩, ⟨dropSlashSuffix (dropGitSuffix r)⟩⟩
  | none => none

/-! ## Content fetcher (`getFileContent`, githubService.js lines 25-41) -/

/-- The fields of a GitHub contents-API response that `getFileContent`
inspects: the entry type, the remote-reported size, and the base64-decoded
content text. -/
structure FileResponse where
  rtype : String
  size : Nat
  content : String
deriving DecidableEq

/-- `getFileContent` (githubService.js lines 25-41), with the HTTP layer
abstracted: `resp = none` models a failed request (the catch branch). The
content is returned only when the entry is a file and its reported size is
below 200000; otherwise the result is `null` (`none`). -/
def getFileContent (resp : Option FileResponse) : Option String :=
  match resp with
  | none => none
  | some r => if r.rtype = "file" ∧ r.size < 200000 then some r.content else none

/-! ## Repository walker (`processDirectory`, githubService.js lines 81-124) -/

/-- A node of the remote repository tree as the walker observes it. A file
node records its listing name, its listing-reported `size`, and `fetched`:
the result `getFileContent` returns for its path (`none` when the fetch
fails or is refused). A directory node records its name and the listing
`getDirectoryContents` returns for its path. -/
inductive Item where
  | file (name : String) (size : Nat) (fetched : Option String)
  | dir (name : String) (contents : List Item)

/-- A collected code file (githubService.js lines 104-111). -/
structure CodeFile where
  path : String
  name : String
  content : String
  language : String
  size : Nat
  fullContent : String
deriving DecidableEq

/-- A collected config/doc file (githubService.js lines 92-97). -/
structure ImportantFile where
  path : String
  name : String
  content : String
  ftype : String
deriving DecidableEq

/-- The walker's accumulator: the `codeFiles` and `importantFiles` arrays. -/
abbrev Acc := List CodeFile × List ImportantFile

/-- githubService.js line 77. -/
def codeExtensions : List String :=
  [".js", ".ts", ".tsx", ".jsx", ".py", ".java", ".cpp", ".c", ".go", ".rs",
   ".php", ".rb", ".swift", ".kt", ".vue", ".svelte"]

/-- githubService.js line 78. -/
def configFiles : List String :=
  ["package.json", "requirements.txt", "Cargo.toml", "pom.xml", "build.gradle",
   "Dockerfile", "docker-compose.yml", ".env.example"]

/-- githubService.js line 79. -/
def docFiles : List String :=
  ["README.md", "CHANGELOG.md", "CONTRIBUTING.md", "docs.md"]

/-- The denylist of githubService.js line 115. -/
def skipDirs : List String :=
  ["node_modules", "dist", "build", "target", "__pycache__", "vendor", ".git"]

/-- githubService.js line 117. -/
def importantDirs : List String :=
  ["src", "lib", "app", "components", "utils", "services", "controllers",
   "models", "routes", "middleware", "config"]

/-- The language map of `getLanguageFromExtension` (githubService.js 56-65). -/
def langMap : List (String × String) :=
  [("js", "JavaScript"), ("ts", "TypeScript"), ("tsx", "TypeScript"),
   ("jsx", "JavaScript"), ("py", "Python"), ("java", "Java"), ("cpp", "C++"),
   ("c", "C"), ("go", "Go"), ("rs", "Rust"), ("php", "PHP"), ("rb", "Ruby"),
   ("swift", "Swift"), ("kt", "Kotlin"), ("vue", "Vue"), ("svelte", "Svelte")]

/-- `getLanguageFromExtension` (githubService.js lines 56-65):
`filename.split('.').pop().toLowerCase()`, looked up in the map, defaulting
to the uppercased extension. -/
def getLanguageFromExtension (filename : String) : String :=
  let ext := toLowerStr ⟨(splitOnChar '.' filename.data).getLastD []⟩
  match langMap.lookup ext with
  | some lang => lang
  | none => toUpperStr ext

/-- Path joining of githubService.js lines 87 and 119-120:
`currentPath ? currentPath + '/' + name : name`. -/
def childPath (currentPath name : String) : String :=
  if currentPath = "" then name else currentPath ++ "/" ++ name

/-- The config/doc check of the file branch of `processDirectory`
(githubService.js lines 89-99): a config/doc name match appends an
ImportantFile with content capped at 8000 characters. A fetch result that
is absent or the empty string (falsy in JavaScript) excludes the
candidate; the same holds in `codeStep`. -/
def configStep (fileName filePath name : String) (fetched : Option String)
    (acc : Acc) : Acc :=
  if configFiles.contains fileName || docFiles.contains fileName then
    match fetched with
    | some c =>
      if c ≠ "" then
        (acc.1, acc.2 ++ [⟨filePath, name, strTake c 8000, "config"⟩])
      else acc
    | none => acc
  else acc

/-- The code-file check of githubService.js lines 101-113. -/
def codeStep (fileName filePath name : String) (size : Nat)
    (fetched : Option String) (acc : Acc) : Acc :=
  if codeExtensions.any (fun ext => strEndsWith fileName ext) && size < 300000 then
    match fetched with
    | some c =>
      if c ≠ "" then
        (acc.1 ++ [⟨filePath, name, strTake c 20000,
                    getLanguageFromExtension fileName, size, c⟩], acc.2)
      else acc
    | none => acc
  else acc

/-- The combined file branch: the config/doc check, then the code check. -/
def handleFile (name : String) (size : Nat) (fetched : Option String)
    (currentPath : String) (acc : Acc) : Acc :=
  let fileName := toLowerStr name
  let filePath := childPath currentPath name
  codeStep fileName filePath name size fetched
    (configStep fileName filePath name fetched acc)

/-- The directory branch of `processDirectory` (githubService.js 114-122):
descend only into non-hidden, non-denylisted directories that are either
allowlisted (lowercased name in `importantDirs`) or at the root level. -/
def dirStep (descend : List Item → String → Nat → Acc → Acc)
    (name : String) (contents : List Item) (currentPath : String)
    (depth : Nat) (acc : Acc) : Acc :=
  if !strStartsWith name "." && !skipDirs.contains name then
    if importantDirs.contains (toLowerStr name) || depth == 0 then
      descend contents (childPath currentPath name) (depth + 1) acc
    else acc
  else acc

/-- The loop `for (const item of contents.slice(0, 60))` of
`processDirectory` (githubService.js line 84): iterate over at most `n`
leading entries (the source passes 60), threading the accumulator.
`descend` is the recursive call used for subdirectories. -/
def goList (descend : List Item → String → Nat → Acc → Acc) :
    Nat → List Item → String → Nat → Acc → Acc
  | _, [], _, _, acc => acc
  | 0, _ :: _, _, _, acc => acc
  | n + 1, item :: rest, currentPath, depth, acc =>
    let acc' :=
      match item with
      | .file name size fetched => handleFile name size fetched currentPath acc
      | .dir name contents => dirStep descend name contents currentPath depth acc
    goList descend n rest currentPath depth acc'

/-- The recursive body of `processDirectory`, with the depth guard
`if (depth > 3) return` encoded as fuel: `walkAux fuel` behaves as the
source's `processDirectory` at `depth` when `fuel = 4 - depth`, so fuel `0`
is exactly the guard `depth > 3` firing. -/
def walkAux : Nat → List Item → String → Nat → Acc → Acc
  | 0, _, _, _, acc => acc
  | fuel + 1, items, currentPath, depth, acc =>
    goList (fun c p d a => walkAux fuel c p d a) 60 items currentPath depth acc

/-- `processDirectory` (githubService.js lines 81-124). -/
def processDirectory (items : List Item) (currentPath : String) (depth : Nat)
    (acc : Acc) : Acc :=
  walkAux (4 - depth) items currentPath depth acc

/-! ## Prioritizer and snapshot assembly (`getRepositoryCode`, lines 128-153) -/

/-- The entry-point keyword list of the sort comparator
(githubService.js line 130). -/
def priorityKeywords : List String := ["index", "main", "app", "server", "router"]

/-- `priority.findIndex(p => name.toLowerCase().includes(p))`
(githubService.js lines 131-132), with `none` standing for `-1`. -/
def findPriority (name : String) : Option Nat :=
  priorityKeywords.findIdx? (fun p => strIncludes (toLowerStr name) p)

/-- The sort comparator of githubService.js lines 129-137, returning the
signed value the source's arrow function returns. -/
def codeCmp (a b : CodeFile) : Int :=
  match findPriority a.name, findPriority b.name with
  | some i, some j => (i : Int) - (j : Int)
  | some _, none => -1
  | none, some _ => 1
  | none, none => (a.size : Int) - (b.size : Int)

/-- The `≤` relation induced by `codeCmp`; `Array.prototype.sort` is a
stable sort with respect to this relation. -/
def codeLe (a b : CodeFile) : Bool := codeCmp a b ≤ 0

/-- The in-place `codeFiles.sort(...)` of githubService.js lines 129-137,
modelled as a stable sort (ECMAScript guarantees sort stability) by the
comparator. -/
def sortCodeFiles (l : List CodeFile) : List CodeFile := stableSort codeLe l

/-- Repository metadata as assembled from the repos-API response
(githubService.js lines 140-148). -/
structure RepoMeta where
  name : String
  description : String
  language : String
  stars : Nat
  forks : Nat
  topics : List String
  homepage : String
deriving DecidableEq

/-- An element of the heterogeneous `allFiles` array
(`[...codeFiles, ...importantFiles]`, githubService.js line 152). -/
inductive SnapFile where
  | code (f : CodeFile)
  | imp (f : ImportantFile)
deriving DecidableEq

/-- The repository snapshot returned by `getRepositoryCode`
(githubService.js lines 139-153). -/
structure Snapshot where
  repoInfo : RepoMeta
  codeFiles : List CodeFile
  importantFiles : List ImportantFile
  totalFiles : Nat
  allFiles : List SnapFile
deriving DecidableEq

/-- `getRepositoryCode` (githubService.js lines 67-159) after the metadata
fetch: walk the tree from the root, sort the collected code files in place,
and assemble the snapshot. Note the source slices `codeFiles` to 25 for the
`codeFiles` field but spreads the unsliced sorted array into `allFiles`. -/
def getRepositoryCode (meta : RepoMeta) (rootContents : List Item) : Snapshot :=
  let acc := processDirectory rootContents "" 0 ([], [])
  let sorted := sortCodeFiles acc.1
  { repoInfo := meta
    codeFiles := sorted.take 25
    importantFiles := acc.2
    totalFiles := sorted.length + acc.2.length
    allFiles := sorted.map SnapFile.code ++ acc.2.map SnapFile.imp }

/-! ## Search module (`searchInFiles` and helpers) -/

/-- One line of context around a match (search module, `getContextLines`). -/
structure ContextLine where
  lineNumber : Nat
  content : String
  isMatch : Bool
deriving DecidableEq

/-- One line-level match record (search module lines 26-32). -/
structure SearchMatch where
  lineNumber : Nat
  line : String
  context : List ContextLine
  matchStart : Nat
  matchLength : Nat
deriving DecidableEq

/-- The `file` summary of a per-file search result (search module lines
39-44). `size` is `none` for important files, whose records carry no `size`
field (`undefined` in JavaScript). -/
structure ResultFileMeta where
  path : String
  name : String
  language : String
  size : Option Nat
deriving DecidableEq

/-- One per-file search result (search module lines 38-47). The source's
`matches` field is named `fmatches` here because `matches` is reserved. -/
structure FileSearchResult where
  file : ResultFileMeta
  fmatches : List SearchMatch
  totalMatches : Nat
deriving DecidableEq

/-- The value `searchInFiles` returns. `query` is `none` on the short-query
early return (whose object literal has no `query` field) and `some` of the
normalized query otherwise. -/
structure SearchOutput where
  results : List FileSearchResult
  totalMatches : Nat
  query : Option String
deriving DecidableEq

/-- `getContextLines` (search module lines 70-79):
`lines.slice(max(0, center-size), min(length, center+size+1))`, each entry
annotated with its 1-based line number and whether it is the match line. -/
def getContextLines (lines : List String) (centerIndex contextSize : Nat) :
    List ContextLine :=
  let start := centerIndex - contextSize
  let stop := min lines.length (centerIndex + contextSize + 1)
  ((lines.drop start).take (stop - start)).mapIdx
    (fun idx line => ⟨start + idx + 1, line, start + idx == centerIndex⟩)

/-- First character index at which `pat` occurs in `s`, or `0` when it does
not occur: models `Math.max(0, s.indexOf(pat))` (search module line 24). -/
def charIndexOf (s pat : List Char) : Nat :=
  match s with
  | [] => 0
  | c :: cs => if litMatch pat (c :: cs) then 0
               else if hasSub cs pat then charIndexOf cs pat + 1 else 0

/-- The per-line `forEach` of `searchInFiles` (search module lines 19-35):
collect a match record for every line whose lowercased text contains the
query. -/
def collectMatches (searchQuery : String) (lines : List String) :
    List SearchMatch :=
  lines.enum.filterMap (fun p =>
    let lowerLine := toLowerStr p.2
    if strIncludes lowerLine searchQuery then
      some ⟨p.1 + 1, trimStr p.2, getContextLines lines p.1 2,
            charIndexOf lowerLine.data searchQuery.data, searchQuery.length⟩
    else none)

/-- The uniform view the search module takes of a snapshot file. -/
def SnapFile.fname : SnapFile → String
  | .code f => f.name
  | .imp f => f.name

/-- The file's path field. -/
def SnapFile.fpath : SnapFile → String
  | .code f => f.path
  | .imp f => f.path

/-- `file.fullContent || file.content` (search module line 15): important
files have no `fullContent` field, and an empty `fullContent` is falsy. -/
def SnapFile.searchContent : SnapFile → String
  | .code f => if f.fullContent = "" then f.content else f.fullContent
  | .imp f => f.content

/-- `file.language || 'text'` (search module line 42). -/
def SnapFile.languageOrText : SnapFile → String
  | .code f => if f.language = "" then "text" else f.language
  | .imp _ => "text"

/-- `file.size`, which is `undefined` for important files. -/
def SnapFile.sizeField : SnapFile → Option Nat
  | .code f => some f.size
  | .imp _ => none

/-- The per-file body of `searchInFiles` (search module lines 14-49): build
the match list; when it is nonempty produce a result whose `matches` are
capped at 5 (`matches.slice(0, 5)`) and whose `totalMatches` is the uncapped
match count. -/
def searchFile (searchQuery : String) (file : SnapFile) :
    Option FileSearchResult :=
  let content := file.searchContent
  let lines := splitLines content
  let ms := collectMatches searchQuery lines
  if ms.length > 0 then
    some ⟨⟨file.fpath, file.fname, file.languageOrText, file.sizeField⟩,
          ms.take 5, ms.length⟩
  else none

/-- `isImportantFile` (search module lines 82-90): substring match of the
lowercased file name against a fixed list of important names. -/
def importantNames : List String :=
  ["index.js", "main.js", "app.js", "server.js", "package.json", "readme.md",
   "config.js"]

/-- `isImportantFile` (search module lines 82-90). -/
def isImportantFile (fileName : String) : Bool :=
  importantNames.any (fun imp => strIncludes (toLowerStr fileName) (toLowerStr imp))

/-- The relevance comparator of search module lines 52-60, returning the
signed value the source's arrow function returns. -/
def resultCmp (a b : FileSearchResult) : Int :=
  let aI := isImportantFile a.file.name
  let bI := isImportantFile b.file.name
  if aI && !bI then -1
  else if !aI && bI then 1
  else (b.totalMatches : Int) - (a.totalMatches : Int)

/-- The `≤` relation induced by `resultCmp` (stable sort comparator). -/
def resultLe (a b : FileSearchResult) : Bool := resultCmp a b ≤ 0

/-- The number of matching lines `searchInFiles` counts for one file: every
line of its search content whose lowercased text contains the query. -/
def countMatchingLines (searchQuery : String) (file : SnapFile) : Nat :=
  (splitLines file.searchContent).countP
    (fun line => strIncludes (toLowerStr line) searchQuery)

/-- The `[...repoData.codeFiles, ...repoData.importantFiles]` array the
search module builds (line 12). -/
def searchAllFiles (repoData : Snapshot) : List SnapFile :=
  repoData.codeFiles.map SnapFile.code ++ repoData.importantFiles.map SnapFile.imp

/-- `searchInFiles` (search module lines 2-67). The query argument is
`Option String` to model a missing (`undefined`) argument; `none` and the
falsy empty string take the same early return as a trimmed length below 2.
The early return carries no `query` field (`query := none`); the normal
return carries the normalized query. `totalMatches` accumulates across every
matching line of every file, before the per-file cap of 5 and the 10-file
cap are applied; the sort models the stable in-place `results.sort`. -/
def searchInFiles (repoData : Snapshot) (query : Option String) : SearchOutput :=
  match query with
  | none => ⟨[], 0, none⟩
  | some q =>
    if q = "" ∨ (trimStr q).length < 2 then ⟨[], 0, none⟩
    else
      let searchQuery := trimStr (toLowerStr q)
      let allFiles := searchAllFiles repoData
      let results := allFiles.filterMap (searchFile searchQuery)
      let total := (allFiles.map (fun f =>
        (collectMatches searchQuery (splitLines f.searchContent)).length)).sum
      ⟨(stableSort resultLe results).take 10, total, some searchQuery⟩

/-! ## Spec-side definitions and concrete instances -/

/-- The prioritizer comparator as the spec words it: a file whose lowercased
name contains an earlier keyword of the ordered list sorts before a file
whose first matching keyword is later; every file containing some keyword
sorts before every file containing none; between two files containing no
keyword, the one with the smaller reported size sorts first. Stated
separately from the source comparator `codeLe` so the two can be compared. -/
def specLe (a b : CodeFile) : Bool :=
  match findPriority a.name, findPriority b.name with
  | some i, some j => i ≤ j
  | some _, none => true
  | none, some _ => false
  | none, none => a.size ≤ b.size

mutual

/-- The item's name (and, recursively, all names below it) contain no `/`. -/
def cleanItem : Item → Bool
  | .file n _ _ => decide ('/' ∉ n.data)
  | .dir n contents => decide ('/' ∉ n.data) && cleanItems contents

/-- All names in the forest contain no `/`. -/
def cleanItems : List Item → Bool
  | [] => true
  | i :: rest => cleanItem i && cleanItems rest

end

/-- Sample repository metadata for concrete instances. -/
def sampleMeta : RepoMeta := ⟨"repoChat", "demo", "JavaScript", 1, 2, [], ""⟩

/-- A root listing of 61 admissible code files, for the breadth-cap bound. -/
def root61 : List Item :=
  (List.range 61).map (fun i => Item.file ("f" ++ toString i ++ ".js") 10 (some "x"))

/-- A root listing of 26 admissible code files with pairwise distinct sizes
and no entry-point keyword in any name. -/
def root26 : List Item :=
  (List.range 26).map (fun i => Item.file ("f" ++ toString i ++ ".js") (10 + i) (some "x"))

/-- A directory tree five levels deep built only of allowlisted directory
names, with one admissible code file at each level below the root. -/
def tree5 : List Item :=
  [.dir "src" [.file "l1.js" 1 (some "x"),
    .dir "lib" [.file "l2.js" 1 (some "x"),
      .dir "app" [.file "l3.js" 1 (some "x"),
        .dir "components" [.file "l4.js" 1 (some "x"),
          .dir "utils" [.file "l5.js" 1 (some "x")]]]]]]

/-- A small root listing with fewer than 25 admissible code files. -/
def rootSmall : List Item :=
  [.file "b.js" 50 (some "hello"), .file "index.js" 500 (some "x"),
   .file "package.json" 10 (some "h")]

/-- A snapshot holding one code file whose content has six lines containing
`foo`, for the search-cap instances. -/
def snapC8 : Snapshot :=
  getRepositoryCode sampleMeta
    [.file "a.js" 10 (some "foo bar\nbaz\nFOO x\nnope\nfoo\nfoo\nfoo\nfoo")]

/-! ## Helper lemmas -/

theorem insertStable_perm (le : α → α → Bool) (x : α) (l : List α) :
    (insertStable le x l).Perm (x :: l) := by
  induction l with
  | nil => exact List.Perm.refl _
  | cons y ys ih =>
    simp only [insertStable]
    split
    · exact (ih.cons y).trans (List.Perm.swap x y ys)
    · exact List.Perm.refl _

theorem stableSort_perm (le : α → α → Bool) (l : List α) :
    (stableSort le l).Perm l := by
  induction l with
  | nil => exact List.Perm.refl _
  | cons x xs ih =>
    exact (insertStable_perm le x (stableSort le xs)).trans (ih.cons x)

theorem mem_stableSort {le : α → α → Bool} {a : α} {l : List α} :
    a ∈ stableSort le l ↔ a ∈ l :=
  (stableSort_perm le l).mem_iff

theorem length_stableSort (le : α → α → Bool) (l : List α) :
    (stableSort le l).length = l.length :=
  (stableSort_perm le l).length_eq

theorem codeLe_eq_specLe (a b : CodeFile) : codeLe a b = specLe a b := by
  unfold codeLe codeCmp specLe
  cases findPriority a.name <;> cases findPriority b.name <;>
    first
      | rfl
      | (simp only [decide_eq_decide, sub_nonpos, Nat.cast_le])

/-! ## Claim theorems -/

/-- C1: for every list of discovered code files, the prioritizer sorts them
as a stable sort by the spec's comparator (earlier entry-point keyword
first, keyword-containing files before keyword-free files, keyword-free
files by ascending size), and the snapshot's `codeFiles` field is the first
at most 25 files in that order. -/
theorem C1_prioritizer_stable_sort (meta : RepoMeta) (root : List Item) :
    (getRepositoryCode meta root).codeFiles
      = (stableSort specLe (processDirectory root "" 0 ([], [])).1).take 25
    ∧ (getRepositoryCode meta root).codeFiles.length ≤ 25 := by
  have h : codeLe = specLe := funext fun a => funext fun b => codeLe_eq_specLe a b
  refine ⟨?_, ?_⟩
  · simp only [getRepositoryCode, sortCodeFiles, h]
  · simp only [getRepositoryCode, sortCodeFiles]
    exact List.length_take_le 25 _

/-- C6: for every file whose remote-reported size exceeds 200000 bytes,
`getFileContent` refuses the content and returns `null` rather than the
decoded file body. -/
theorem C6_fetch_refuses_oversize (r : FileResponse) (h : 200000 < r.size) :
    getFileContent (some r) = none := by
  show (if r.rtype = "file" ∧ r.size < 200000 then some r.content else none) = none
  refine if_neg ?_
  rintro ⟨-, h2⟩
  omega

/-- Witness for C6 at a concrete oversized response. -/
theorem C6_fetch_refuses_oversize_witness :
    200000 < (300000 : Nat)
      ∧ getFileContent (some ⟨"file", 300000, "body"⟩) = none :=
  ⟨by decide, C6_fetch_refuses_oversize ⟨"file", 300000, "body"⟩ (by decide)⟩

/-- C9: for every query that is missing (`none`), empty, or whose trimmed
length is below 2, `searchInFiles` returns exactly
`{results: [], totalMatches: 0}` (with no `query` field), not an error. -/
theorem C9_short_query_empty (repoData : Snapshot) (q : Option String)
    (h : ∀ s, q = some s → (trimStr s).length < 2) :
    searchInFiles repoData q = ⟨[], 0, none⟩ := by
  cases q with
  | none => rfl
  | some s =>
    have hs := h s rfl
    simp only [searchInFiles]
    rw [if_pos (Or.inr hs)]

/-- Witness for C9 at the one-character query `"x"`. -/
theorem C9_short_query_empty_witness :
    (∀ s, (some "x" : Option String) = some s → (trimStr s).length < 2)
      ∧ searchInFiles snapC8 (some "x") = ⟨[], 0, none⟩ :=
  ⟨fun s hs => by cases hs; decide,
   C9_short_query_empty snapC8 (some "x") (fun s hs => by cases hs; decide)⟩

theorem goList_take (descend : List Item → String → Nat → Acc → Acc) :
    ∀ (n : Nat) (items : List Item) (currentPath : String) (depth : Nat) (acc : Acc),
      goList descend n items currentPath depth acc
        = goList descend n (items.take n) currentPath depth acc := by
  intro n
  induction n with
  | zero => intro items _ _ _; cases items <;> rfl
  | succ n ih =>
    intro items currentPath depth acc
    cases items with
    | nil => rfl
    | cons i rest =>
      simp only [goList, List.take_succ_cons]
      exact ih rest currentPath depth _

theorem walkAux_take60 (fuel : Nat) (items : List Item) (currentPath : String)
    (depth : Nat) (acc : Acc) :
    walkAux fuel items currentPath depth acc
      = walkAux fuel (items.take 60) currentPath depth acc := by
  cases fuel with
  | zero => rfl
  | succ f => exact goList_take _ 60 items currentPath depth acc

/-- C5: at every directory level only the first 60 entries of the listing
are considered and the rest are silently dropped (the first conjunct covers
every invocation of `processDirectory`, hence every level); for the
concrete root listing `root61` of 61 files, exactly 60 files are processed
and the 61st (`f60.js`) never appears in the result. -/
theorem C5_breadth_cap :
    (∀ (items : List Item) (currentPath : String) (depth : Nat) (acc : Acc),
        processDirectory items currentPath depth acc
          = processDirectory (items.take 60) currentPath depth acc)
    ∧ (processDirectory root61 "" 0 ([], [])).1.length = 60
    ∧ (((processDirectory root61 "" 0 ([], [])).1.map (fun f => f.name)).contains
        "f60.js") = false :=
  ⟨fun items currentPath depth acc => walkAux_take60 _ items currentPath depth acc,
   by decide, by decide⟩

/-- The code-file invariant of C2, as a predicate on one collected file. -/
def ContentInv (f : CodeFile) : Prop :=
  f.content.length ≤ 20000 ∧ f.content.data <+: f.fullContent.data

theorem configStep_fst (fileName filePath name : String)
    (fetched : Option String) (acc : Acc) :
    (configStep fileName filePath name fetched acc).1 = acc.1 := by
  unfold configStep
  split
  · split
    · split <;> rfl
    · rfl
  · rfl

theorem configStep_snd_mem (fileName filePath name : String)
    (fetched : Option String) (acc : Acc) :
    ∀ g ∈ (configStep fileName filePath name fetched acc).2,
      g ∈ acc.2 ∨ ∃ c : String,
        g = ⟨filePath, name, strTake c 8000, "config"⟩ := by
  unfold configStep
  split
  · split
    · rename_i c
      split
      · intro g hg
        rcases List.mem_append.mp hg with h1 | h2
        · exact Or.inl h1
        · exact Or.inr ⟨c, List.mem_singleton.mp h2⟩
      · exact fun g hg => Or.inl hg
    · exact fun g hg => Or.inl hg
  · exact fun g hg => Or.inl hg

theorem codeStep_snd (fileName filePath name : String) (size : Nat)
    (fetched : Option String) (acc : Acc) :
    (codeStep fileName filePath name size fetched acc).2 = acc.2 := by
  unfold codeStep
  split
  · split
    · split <;> rfl
    · rfl
  · rfl

theorem codeStep_fst_mem (fileName filePath name : String) (size : Nat)
    (fetched : Option String) (acc : Acc) :
    ∀ f ∈ (codeStep fileName filePath name size fetched acc).1,
      f ∈ acc.1 ∨ ∃ c : String,
        f = ⟨filePath, name, strTake c 20000,
             getLanguageFromExtension fileName, size, c⟩ := by
  unfold codeStep
  split
  · split
    · rename_i c
      split
      · intro f hf
        rcases List.mem_append.mp hf with h1 | h2
        · exact Or.inl h1
        · exact Or.inr ⟨c, List.mem_singleton.mp h2⟩
      · exact fun f hf => Or.inl hf
    · exact fun f hf => Or.inl hf
  · exact fun f hf => Or.inl hf

theorem handleFile_fst_mem (name : String) (size : Nat)
    (fetched : Option String) (currentPath : String) (acc : Acc) :
    ∀ f ∈ (handleFile name size fetched currentPath acc).1,
      f ∈ acc.1 ∨ ∃ c : String,
        f = ⟨childPath currentPath name, name, strTake c 20000,
             getLanguageFromExtension (toLowerStr name), size, c⟩ := by
  intro f hf
  rcases codeStep_fst_mem _ _ _ _ _ _ f hf with h1 | h2
  · rw [configStep_fst] at h1
    exact Or.inl h1
  · exact Or.inr h2

theorem handleFile_snd_mem (name : String) (size : Nat)
    (fetched : Option String) (currentPath : String) (acc : Acc) :
    ∀ g ∈ (handleFile name size fetched currentPath acc).2,
      g ∈ acc.2 ∨ ∃ c : String,
        g = ⟨childPath currentPath name, name, strTake c 8000, "config"⟩ := by
  intro g hg
  rw [handleFile, codeStep_snd] at hg
  exact configStep_snd_mem _ _ _ _ _ g hg

theorem goList_contentInv (descend : List Item → String → Nat → Acc → Acc)
    (hd : ∀ c p d a, (∀ f ∈ a.1, ContentInv f) →
          ∀ f ∈ (descend c p d a).1, ContentInv f) :
    ∀ (n : Nat) (items : List Item) (currentPath : String) (depth : Nat)
      (acc : Acc), (∀ f ∈ acc.1, ContentInv f) →
      ∀ f ∈ (goList descend n items currentPath depth acc).1, ContentInv f := by
  intro n items
  induction items generalizing n with
  | nil => intro currentPath depth acc h; cases n <;> exact h
  | cons i rest ih =>
    intro currentPath depth acc h
    cases n with
    | zero => exact h
    | succ n =>
      cases i with
      | file nm sz fetc =>
        simp only [goList]
        apply ih
        intro f hf
        rcases handleFile_fst_mem nm sz fetc currentPath acc f hf with h1 | ⟨c, rfl⟩
        · exact h f h1
        · exact ⟨List.length_take_le 20000 c.data,
                 ⟨c.data.drop 20000, List.take_append_drop 20000 c.data⟩⟩
      | dir nm contents =>
        simp only [goList]
        apply ih
        unfold dirStep
        split
        · split
          · exact hd _ _ _ _ h
          · exact h
        · exact h

theorem walkAux_contentInv :
    ∀ (fuel : Nat) (items : List Item) (currentPath : String) (depth : Nat)
      (acc : Acc), (∀ f ∈ acc.1, ContentInv f) →
      ∀ f ∈ (walkAux fuel items currentPath depth acc).1, ContentInv f := by
  intro fuel
  induction fuel with
  | zero => intro _ _ _ _ h; exact h
  | succ fuel ih =>
    intro items cp d acc h
    exact goList_contentInv _ (fun c p d a ha => ih c p d a ha) 60 items cp d acc h

/-- C2: every CodeFile entry produced by an ingestion has a `content` field
of at most 20000 characters, and `content` is a string prefix of
`fullContent`, the untruncated fetch result. -/
theorem C2_content_truncation (meta : RepoMeta) (root : List Item)
    (f : CodeFile) (hf : f ∈ (getRepositoryCode meta root).codeFiles) :
    f.content.length ≤ 20000 ∧ f.content.data <+: f.fullContent.data := by
  have hc : (getRepositoryCode meta root).codeFiles
      = (stableSort codeLe (processDirectory root "" 0 ([], [])).1).take 25 := rfl
  rw [hc] at hf
  have h2 : f ∈ (processDirectory root "" 0 ([], [])).1 :=
    mem_stableSort.mp (List.mem_of_mem_take hf)
  exact walkAux_contentInv _ _ _ _ _ (fun g hg => absurd hg (List.not_mem_nil g)) f h2

/-- Witness for C2: the single collected file of a one-file repository. -/
theorem C2_content_truncation_witness :
    (⟨"a.js", "a.js", "hello", "JavaScript", 10, "hello"⟩ : CodeFile)
        ∈ (getRepositoryCode sampleMeta [.file "a.js" 10 (some "hello")]).codeFiles
    ∧ ((⟨"a.js", "a.js", "hello", "JavaScript", 10, "hello"⟩ : CodeFile).content.length ≤ 20000
        ∧ (⟨"a.js", "a.js", "hello", "JavaScript", 10, "hello"⟩ : CodeFile).content.data
            <+: (⟨"a.js", "a.js", "hello", "JavaScript", 10, "hello"⟩ : CodeFile).fullContent.data) :=
  ⟨by decide, C2_content_truncation sampleMeta [.file "a.js" 10 (some "hello")] _ (by decide)⟩

/-- The depth-cap invariant of C4 on an accumulator: every collected path
has at most 3 slashes, i.e. lies at most 3 directory levels below the root. -/
def SlashInv (acc : Acc) : Prop :=
  (∀ f ∈ acc.1, countSlash f.path ≤ 3) ∧ (∀ g ∈ acc.2, countSlash g.path ≤ 3)

theorem countSlash_childPath_le (cp name : String) (hn : countSlash name = 0) :
    countSlash (childPath cp name) ≤ countSlash cp + 1 := by
  unfold childPath
  split
  · simp [hn]
  · unfold countSlash at *
    simp [String.data_append, List.count_append, hn]

theorem countSlash_childPath_zero (name : String) (hn : countSlash name = 0) :
    countSlash (childPath "" name) = 0 := by
  unfold childPath
  rw [if_pos rfl]
  exact hn

theorem goList_slashInv (descend : List Item → String → Nat → Acc → Acc)
    (fuel : Nat)
    (hd : ∀ c p d a, cleanItems c = true → fuel ≤ 4 →
          (p = "" ∨ countSlash p + fuel ≤ 3) → SlashInv a → SlashInv (descend c p d a)) :
    ∀ (n : Nat) (items : List Item) (currentPath : String) (depth : Nat)
      (acc : Acc), cleanItems items = true → fuel + 1 ≤ 4 →
      (currentPath = "" ∨ countSlash currentPath + (fuel + 1) ≤ 3) →
      SlashInv acc →
      SlashInv (goList descend n items currentPath depth acc) := by
  intro n items
  induction items generalizing n with
  | nil => intro currentPath depth acc _ _ _ h; cases n <;> exact h
  | cons i rest ih =>
    intro currentPath depth acc hclean hfuel hp h
    rw [cleanItems] at hclean
    rw [Bool.and_eq_true] at hclean
    cases n with
    | zero => exact h
    | succ n =>
      cases i with
      | file nm sz fetc =>
        have hnm : countSlash nm = 0 := by
          rw [cleanItem] at hclean
          exact List.count_eq_zero.mpr (of_decide_eq_true hclean.1)
        have hpush : countSlash (childPath currentPath nm) ≤ 3 := by
          rcases hp with rfl | hp2
          · rw [countSlash_childPath_zero nm hnm]; omega
          · have := countSlash_childPath_le currentPath nm hnm
            omega
        simp only [goList]
        apply ih
        · exact hclean.2
        · exact hfuel
        · exact hp
        · refine ⟨?_, ?_⟩
          · intro f hf
            rcases handleFile_fst_mem nm sz fetc currentPath acc f hf with h1 | ⟨c, rfl⟩
            · exact h.1 f h1
            · exact hpush
          · intro g hg
            rcases handleFile_snd_mem nm sz fetc currentPath acc g hg with h1 | ⟨c, rfl⟩
            · exact h.2 g h1
            · exact hpush
      | dir nm contents =>
        have hnm : countSlash nm = 0 := by
          rw [cleanItem] at hclean
          rw [Bool.and_eq_true] at hclean
          exact List.count_eq_zero.mpr (of_decide_eq_true hclean.1.1)
        have hcontents : cleanItems contents = true := by
          rw [cleanItem] at hclean
          rw [Bool.and_eq_true] at hclean
          exact hclean.1.2
        simp only [goList]
        apply ih
        · exact hclean.2
        · exact hfuel
        · exact hp
        · unfold dirStep
          split
          · split
            · refine hd _ _ _ _ hcontents (by omega) (Or.inr ?_) h
              rcases hp with rfl | hp2
              · rw [countSlash_childPath_zero nm hnm]; omega
              · have := countSlash_childPath_le currentPath nm hnm
                omega
            · exact h
          · exact h

theorem walkAux_slashInv :
    ∀ (fuel : Nat) (items : List Item) (currentPath : String) (depth : Nat)
      (acc : Acc), cleanItems items = true → fuel ≤ 4 →
      (currentPath = "" ∨ countSlash currentPath + fuel ≤ 3) →
      SlashInv acc → SlashInv (walkAux fuel items currentPath depth acc) := by
  intro fuel
  induction fuel with
  | zero => intro _ _ _ _ _ _ _ h; exact h
  | succ fuel ih =>
    intro items cp d acc hclean hle hp h
    exact goList_slashInv _ fuel (fun c p d a hc hf hps ha => ih c p d a hc hf hps ha)
      60 items cp d acc hclean hle hp h

/-- C4: the walk visits at most 4 directory levels including the root
(depth 0..3): recursion beyond depth 3 stops, so — names containing no `/`
— every file in `codeFiles` or `importantFiles` has a path with at most 3
slashes, i.e. lies at most 3 levels deep; no file of a would-be 4th nested
level (4 or more slashes) ever appears. -/
theorem C4_depth_cap (items : List Item) (h : cleanItems items = true) :
    (∀ f ∈ (processDirectory items "" 0 ([], [])).1, countSlash f.path ≤ 3)
    ∧ (∀ g ∈ (processDirectory items "" 0 ([], [])).2, countSlash g.path ≤ 3) :=
  walkAux_slashInv 4 items "" 0 ([], []) h (by omega) (Or.inl rfl)
    ⟨fun f hf => absurd hf (List.not_mem_nil f),
     fun g hg => absurd hg (List.not_mem_nil g)⟩

/-- Witness for C4 at the five-level tree of allowlisted directory names. -/
theorem C4_depth_cap_witness :
    cleanItems tree5 = true
    ∧ ((∀ f ∈ (processDirectory tree5 "" 0 ([], [])).1, countSlash f.path ≤ 3)
       ∧ (∀ g ∈ (processDirectory tree5 "" 0 ([], [])).2, countSlash g.path ≤ 3)) :=
  ⟨by decide, C4_depth_cap tree5 (by decide)⟩

/-- C7 as stated fails on the code: `allFiles` spreads the UNSLICED sorted
code-file array (githubService.js line 152), while the `codeFiles` field is
sliced to 25 (line 149). With the 26 discovered code files of `root26`,
`allFiles` has 26 code entries but `codeFiles ++ importantFiles` has 25. -/
theorem C7_counterexample :
    ¬ ((getRepositoryCode sampleMeta root26).allFiles
        = (getRepositoryCode sampleMeta root26).codeFiles.map SnapFile.code
          ++ (getRepositoryCode sampleMeta root26).importantFiles.map SnapFile.imp) := by
  decide

/-- C7 amended: `allFiles` equals the concatenation of the full prioritized
code-file sequence — not capped at 25 — and `importantFiles`; it coincides
with the snapshot's capped `codeFiles` field followed by `importantFiles`
exactly when at most 25 code files were discovered. -/
theorem C7_amended_allFiles (meta : RepoMeta) (root : List Item) :
    (getRepositoryCode meta root).allFiles
      = (sortCodeFiles (processDirectory root "" 0 ([], [])).1).map SnapFile.code
        ++ (getRepositoryCode meta root).importantFiles.map SnapFile.imp
    ∧ ((processDirectory root "" 0 ([], [])).1.length ≤ 25 →
        (getRepositoryCode meta root).allFiles
          = (getRepositoryCode meta root).codeFiles.map SnapFile.code
            ++ (getRepositoryCode meta root).importantFiles.map SnapFile.imp) := by
  refine ⟨rfl, fun h => ?_⟩
  have hc : (getRepositoryCode meta root).codeFiles
      = (sortCodeFiles (processDirectory root "" 0 ([], [])).1).take 25 := rfl
  have hlen : (sortCodeFiles (processDirectory root "" 0 ([], [])).1).length ≤ 25 := by
    rw [sortCodeFiles, length_stableSort]
    exact h
  rw [hc, List.take_of_length_le hlen]
  rfl

/-- Witness for the amended C7 at a repository with fewer than 25 files. -/
theorem C7_amended_allFiles_witness :
    (processDirectory rootSmall "" 0 ([], [])).1.length ≤ 25
    ∧ (getRepositoryCode sampleMeta rootSmall).allFiles
        = (getRepositoryCode sampleMeta rootSmall).codeFiles.map SnapFile.code
          ++ (getRepositoryCode sampleMeta rootSmall).importantFiles.map SnapFile.imp :=
  ⟨by decide, (C7_amended_allFiles sampleMeta rootSmall).2 (by decide)⟩

theorem length_filterMap_matchIf (sq : String) (lines : List String) :
    ∀ (n : Nat) (ls : List String),
      ((List.enumFrom n ls).filterMap (fun p =>
          let lowerLine := toLowerStr p.2
          if strIncludes lowerLine sq then
            some (⟨p.1 + 1, trimStr p.2, getContextLines lines p.1 2,
                   charIndexOf lowerLine.data sq.data, sq.length⟩ : SearchMatch)
          else none)).length
        = ls.countP (fun line => strIncludes (toLowerStr line) sq) := by
  intro n ls
  induction ls generalizing n with
  | nil => rfl
  | cons l rest ih =>
    simp only [List.enumFrom, List.filterMap_cons]
    by_cases hb : strIncludes (toLowerStr l) sq
    · simp [hb, ih (n + 1), List.countP_cons]
    · simp [hb, ih (n + 1), List.countP_cons]

theorem length_collectMatches (sq : String) (lines : List String) :
    (collectMatches sq lines).length
      = lines.countP (fun line => strIncludes (toLowerStr line) sq) := by
  have h := length_filterMap_matchIf sq lines 0 lines
  simpa only [collectMatches, List.enum] using h

theorem searchFile_eq_some (sq : String) (file : SnapFile)
    (r : FileSearchResult) (h : searchFile sq file = some r) :
    r.totalMatches = countMatchingLines sq file
    ∧ r.fmatches.length = min 5 (countMatchingLines sq file) := by
  simp only [searchFile] at h
  split at h
  · rename_i hpos
    cases h
    refine ⟨?_, ?_⟩
    · exact length_collectMatches sq (splitLines file.searchContent)
    · rw [List.length_take]
      rw [length_collectMatches sq (splitLines file.searchContent)]
      rfl
  · cases h

theorem searchInFiles_long (repoData : Snapshot) (q : String)
    (h : 2 ≤ (trimStr q).length) :
    searchInFiles repoData (some q)
      = ⟨(stableSort resultLe
            ((searchAllFiles repoData).filterMap
              (searchFile (trimStr (toLowerStr q))))).take 10,
         ((searchAllFiles repoData).map (fun f =>
            (collectMatches (trimStr (toLowerStr q))
              (splitLines f.searchContent)).length)).sum,
         some (trimStr (toLowerStr q))⟩ := by
  have hcond : ¬(q = "" ∨ (trimStr q).length < 2) := by
    rintro (rfl | hlt)
    · exact absurd h (by decide)
    · omega
  simp only [searchInFiles, if_neg hcond]

/-- C8: for every query of trimmed length at least 2, at most 10 file
results are returned; each retained file result keeps at most 5
line-matches while its `totalMatches` field reports the file's full
matching-line count (so a file with 6 matching lines yields exactly
`min 5 6 = 5` retained matches and a reported count of 6). -/
theorem C8_search_caps (repoData : Snapshot) (q : String)
    (h : 2 ≤ (trimStr q).length) :
    (searchInFiles repoData (some q)).results.length ≤ 10
    ∧ ∀ r ∈ (searchInFiles repoData (some q)).results,
        r.fmatches.length ≤ 5
        ∧ ∃ file ∈ searchAllFiles repoData,
            r.totalMatches = countMatchingLines (trimStr (toLowerStr q)) file
            ∧ r.fmatches.length
                = min 5 (countMatchingLines (trimStr (toLowerStr q)) file) := by
  rw [searchInFiles_long repoData q h]
  refine ⟨List.length_take_le 10 _, ?_⟩
  intro r hr
  have hr2 : r ∈ (searchAllFiles repoData).filterMap
      (searchFile (trimStr (toLowerStr q))) :=
    mem_stableSort.mp (List.mem_of_mem_take hr)
  rcases List.mem_filterMap.mp hr2 with ⟨file, hfile, hsome⟩
  rcases searchFile_eq_some _ _ _ hsome with ⟨ht, hm⟩
  exact ⟨by rw [hm]; exact Nat.min_le_left 5 _, file, hfile, ht, hm⟩

/-- Witness for C8: a file with six matching lines keeps 5 matches and
reports 6. -/
theorem C8_search_caps_witness :
    2 ≤ (trimStr "foo").length
    ∧ ((searchInFiles snapC8 (some "foo")).results.length ≤ 10
       ∧ ∀ r ∈ (searchInFiles snapC8 (some "foo")).results,
           r.fmatches.length ≤ 5
           ∧ ∃ file ∈ searchAllFiles snapC8,
               r.totalMatches = countMatchingLines (trimStr (toLowerStr "foo")) file
               ∧ r.fmatches.length
                   = min 5 (countMatchingLines (trimStr (toLowerStr "foo")) file))
    ∧ (searchInFiles snapC8 (some "foo")).results.map
        (fun r => (r.fmatches.length, r.totalMatches)) = [(5, 6)] :=
  ⟨by decide, C8_search_caps snapC8 "foo" (by decide), by decide⟩

/-- C10: for every snapshot and query of trimmed length at least 2, the
top-level `totalMatches` equals the total number of matching lines across
all files of the snapshot — including files dropped by the 10-file cap and
line-matches beyond the 5-per-file cap — and there are inputs where it
strictly exceeds the number of matches present in the returned results. -/
theorem C10_totalMatches_counts_all (repoData : Snapshot) (q : String)
    (h : 2 ≤ (trimStr q).length) :
    (searchInFiles repoData (some q)).totalMatches
      = ((searchAllFiles repoData).map
          (countMatchingLines (trimStr (toLowerStr q)))).sum
    ∧ ∃ (d : Snapshot) (p : String), 2 ≤ (trimStr p).length
        ∧ ((searchInFiles d (some p)).results.map
            (fun r => r.fmatches.length)).sum
          < (searchInFiles d (some p)).totalMatches := by
  refine ⟨?_, snapC8, "foo", by decide, by decide⟩
  rw [searchInFiles_long repoData q h]
  have hfun : (fun f => (collectMatches (trimStr (toLowerStr q))
        (splitLines (SnapFile.searchContent f))).length)
      = countMatchingLines (trimStr (toLowerStr q)) :=
    funext fun f => length_collectMatches _ _
  rw [hfun]

/-- Witness for C10 at a concrete snapshot and query. -/
theorem C10_totalMatches_counts_all_witness :
    2 ≤ (trimStr "foo").length
    ∧ (searchInFiles snapC8 (some "foo")).totalMatches
        = ((searchAllFiles snapC8).map
            (countMatchingLines (trimStr (toLowerStr "foo")))).sum :=
  ⟨by decide, (C10_totalMatches_counts_all snapC8 "foo" (by decide)).1⟩

theorem litMatch_append_self : ∀ (p rest : List Char), litMatch p (p ++ rest) = true := by
  intro p rest
  induction p with
  | nil => rfl
  | cons c cs ih => simp [litMatch, ih]

theorem matchRepoAt_not_g (c : Char) (cs : List Char) (hc : c ≠ 'g') :
    matchRepoAt (c :: cs) = none := by
  have hl : litMatch ghPat (c :: cs) = false := by
    have hg : ghPat = 'g' :: "ithub.com/".data := rfl
    rw [hg]
    simp only [litMatch, Bool.and_eq_false_iff]
    exact Or.inl (beq_eq_false_iff_ne.mpr (Ne.symm hc))
  simp [matchRepoAt, hl]

theorem findRepoMatch_skip (c : Char) (cs : List Char) (hc : c ≠ 'g') :
    findRepoMatch (c :: cs) = findRepoMatch cs := by
  simp [findRepoMatch, matchRepoAt_not_g c cs hc]

theorem takeWhile_append_all (p : Char → Bool) (xs ys : List Char)
    (h : ∀ x ∈ xs, p x = true) :
    (xs ++ ys).takeWhile p = xs ++ ys.takeWhile p := by
  induction xs with
  | nil => rfl
  | cons x xs ih =>
    have hx : p x = true := h x (List.mem_cons_self x xs)
    simp only [List.cons_append, List.takeWhile_cons, hx, if_true]
    rw [ih (fun a ha => h a (List.mem_cons_of_mem x ha))]

theorem takeWhile_eq_self_of_all (p : Char → Bool) (xs : List Char)
    (h : ∀ x ∈ xs, p x = true) : xs.takeWhile p = xs := by
  have h2 := takeWhile_append_all p xs [] h
  simpa using h2

theorem endsWithL_append (xs suf : List Char) : endsWithL (xs ++ suf) suf = true := by
  unfold endsWithL
  rw [List.reverse_append]
  exact litMatch_append_self suf.reverse xs.reverse

theorem endsWithL_single (r : List Char) (y : Char) (h : ∀ c ∈ r, c ≠ y) :
    endsWithL r [y] = false := by
  unfold endsWithL
  cases hr : r.reverse with
  | nil => rfl
  | cons c cs =>
    have hc : c ∈ r := by
      rw [← List.mem_reverse, hr]
      exact List.mem_cons_self c cs
    simp only [List.reverse_cons, List.reverse_nil, List.nil_append, litMatch,
      Bool.and_eq_false_iff]
    exact Or.inl (beq_eq_false_iff_ne.mpr (Ne.symm (h c hc)))

theorem matchRepoAt_hit (o tail : List Char) (ho : o ≠ [])
    (ho2 : ∀ c ∈ o, c ≠ '/')
    (hs : tail.takeWhile (fun c => c != '/') ≠ []) :
    matchRepoAt (ghPat ++ (o ++ '/' :: tail))
      = some (o, tail.takeWhile (fun c => c != '/')) := by
  have hall : ∀ x ∈ o, (fun c => c != '/') x = true :=
    fun x hx => bne_iff_ne.mpr (ho2 x hx)
  have hrest : (ghPat ++ (o ++ '/' :: tail)).drop ghPat.length = o ++ '/' :: tail :=
    List.drop_left ghPat (o ++ '/' :: tail)
  have hseg1 : (o ++ '/' :: tail).takeWhile (fun c => c != '/') = o := by
    rw [takeWhile_append_all _ o ('/' :: tail) hall]
    simp [List.takeWhile_cons]
  have ho' : o.isEmpty = false := by
    cases o with
    | nil => exact absurd rfl ho
    | cons _ _ => rfl
  have hseg2 : (tail.takeWhile (fun c => c != '/')).isEmpty = false := by
    cases ht : tail.takeWhile (fun c => c != '/') with
    | nil => exact absurd ht hs
    | cons _ _ => rfl
  have hdrop : (o ++ '/' :: tail).drop o.length = '/' :: tail :=
    List.drop_left o ('/' :: tail)
  simp only [matchRepoAt, litMatch_append_self ghPat (o ++ '/' :: tail), if_true,
    hrest, hseg1, ho', Bool.false_eq_true, if_false, hdrop, hseg2]

theorem findRepoMatch_url (o tail : List Char) (ho : o ≠ [])
    (ho2 : ∀ c ∈ o, c ≠ '/')
    (hs : tail.takeWhile (fun c => c != '/') ≠ []) :
    findRepoMatch
        ('h' :: 't' :: 't' :: 'p' :: 's' :: ':' :: '/' :: '/'
          :: (ghPat ++ (o ++ '/' :: tail)))
      = some (o, tail.takeWhile (fun c => c != '/')) := by
  rw [findRepoMatch_skip 'h' _ (by decide), findRepoMatch_skip 't' _ (by decide),
    findRepoMatch_skip 't' _ (by decide), findRepoMatch_skip 'p' _ (by decide),
    findRepoMatch_skip 's' _ (by decide), findRepoMatch_skip ':' _ (by decide),
    findRepoMatch_skip '/' _ (by decide), findRepoMatch_skip '/' _ (by decide)]
  have hcons : ghPat ++ (o ++ '/' :: tail)
      = 'g' :: ("ithub.com/".data ++ (o ++ '/' :: tail)) := rfl
  rw [hcons, findRepoMatch, ← hcons, matchRepoAt_hit o tail ho ho2 hs]

theorem https_url_data (owner repo sfx : String) :
    ("https://github.com/" ++ owner ++ "/" ++ repo ++ sfx).data
      = 'h' :: 't' :: 't' :: 'p' :: 's' :: ':' :: '/' :: '/'
          :: (ghPat ++ (owner.data ++ '/' :: (repo.data ++ sfx.data))) := by
  have hp : "https://github.com/".data
      = ('h' :: 't' :: 't' :: 'p' :: 's' :: ':' :: '/' :: '/' :: []) ++ ghPat := rfl
  have hs : "/".data = ['/'] := rfl
  have hg : ghPat = ['g', 'i', 't', 'h', 'u', 'b', '.', 'c', 'o', 'm', '/'] := rfl
  simp only [String.data_append, hp, hs, hg, List.cons_append, List.nil_append,
    List.append_assoc]

theorem https_url_data0 (owner repo : String) :
    ("https://github.com/" ++ owner ++ "/" ++ repo).data
      = 'h' :: 't' :: 't' :: 'p' :: 's' :: ':' :: '/' :: '/'
          :: (ghPat ++ (owner.data ++ '/' :: repo.data)) := by
  have hp : "https://github.com/".data
      = ('h' :: 't' :: 't' :: 'p' :: 's' :: ':' :: '/' :: '/' :: []) ++ ghPat := rfl
  have hs : "/".data = ['/'] := rfl
  have hg : ghPat = ['g', 'i', 't', 'h', 'u', 'b', '.', 'c', 'o', 'm', '/'] := rfl
  simp only [String.data_append, hp, hs, hg, List.cons_append, List.nil_append,
    List.append_assoc]

theorem extractRepoInfo_at (url owner : String) (tail : List Char)
    (hu : url.data = 'h' :: 't' :: 't' :: 'p' :: 's' :: ':' :: '/' :: '/'
        :: (ghPat ++ (owner.data ++ '/' :: tail)))
    (ho : owner.data ≠ []) (ho2 : ∀ c ∈ owner.data, c ≠ '/')
    (hs : tail.takeWhile (fun c => c != '/') ≠ []) :
    extractRepoInfo url
      = some ⟨owner,
          ⟨dropSlashSuffix (dropGitSuffix (tail.takeWhile (fun c => c != '/')))⟩⟩ := by
  unfold extractRepoInfo
  rw [hu, findRepoMatch_url _ _ ho ho2 hs]

theorem dropGitSuffix_no_git (r : List Char)
    (hg : endsWithL r ".git".data = false) : dropGitSuffix r = r := by
  unfold dropGitSuffix
  rw [hg]
  simp

theorem dropGitSuffix_append_git (r : List Char) :
    dropGitSuffix (r ++ ".git".data) = r := by
  unfold dropGitSuffix
  rw [endsWithL_append]
  simp only [if_true, List.length_append]
  have h4 : (".git".data).length = 4 := rfl
  rw [h4, Nat.add_sub_cancel, List.take_left]

theorem dropSlashSuffix_no_slash (r : List Char) (h : ∀ c ∈ r, c ≠ '/') :
    dropSlashSuffix r = r := by
  unfold dropSlashSuffix
  have : endsWithL r "/".data = false := endsWithL_single r '/' h
  rw [this]
  simp

/-- C3: for every pair of URL strings naming the same owner and repo and
differing only by a trailing `.git` suffix or a trailing slash, identity
extraction returns equal `{owner, repo}` identities — all three URL forms
map to `some ⟨owner, repo⟩`, hence to the same cache key. The hypotheses
say the owner and repo segments are nonempty, contain no `/`, and the repo
name does not itself end in `.git`. -/
theorem C3_identity_normalization (owner repo : String)
    (ho : owner.data ≠ []) (ho2 : ∀ c ∈ owner.data, c ≠ '/')
    (hr : repo.data ≠ []) (hr2 : ∀ c ∈ repo.data, c ≠ '/')
    (hg : endsWithL repo.data ".git".data = false) :
    extractRepoInfo ("https://github.com/" ++ owner ++ "/" ++ repo ++ ".git")
        = extractRepoInfo ("https://github.com/" ++ owner ++ "/" ++ repo)
    ∧ extractRepoInfo ("https://github.com/" ++ owner ++ "/" ++ repo ++ "/")
        = extractRepoInfo ("https://github.com/" ++ owner ++ "/" ++ repo)
    ∧ extractRepoInfo ("https://github.com/" ++ owner ++ "/" ++ repo)
        = some ⟨owner, repo⟩ := by
  have hallr : ∀ x ∈ repo.data, (fun c => c != '/') x = true :=
    fun x hx => bne_iff_ne.mpr (hr2 x hx)
  have hself : repo.data.takeWhile (fun c => c != '/') = repo.data :=
    takeWhile_eq_self_of_all _ repo.data hallr
  -- the base URL
  have hbase : extractRepoInfo ("https://github.com/" ++ owner ++ "/" ++ repo)
      = some ⟨owner, repo⟩ := by
    rw [extractRepoInfo_at _ owner repo.data (https_url_data0 owner repo) ho ho2
      (by rw [hself]; exact hr)]
    rw [hself, dropGitSuffix_no_git repo.data hg, dropSlashSuffix_no_slash repo.data hr2]
  -- the `.git` URL
  have hgitseg : (repo.data ++ ".git".data).takeWhile (fun c => c != '/')
      = repo.data ++ ".git".data := by
    refine takeWhile_eq_self_of_all _ _ ?_
    intro x hx
    rcases List.mem_append.mp hx with h1 | h2
    · exact hallr x h1
    · have hgitchars : ∀ y ∈ (".git".data), (fun c => c != '/') y = true := by decide
      exact hgitchars x h2
  have hgit : extractRepoInfo ("https://github.com/" ++ owner ++ "/" ++ repo ++ ".git")
      = some ⟨owner, repo⟩ := by
    have hu := https_url_data owner repo ".git"
    rw [extractRepoInfo_at _ owner (repo.data ++ ".git".data) hu ho ho2
      (by rw [hgitseg]; intro hnil; exact hr (List.append_eq_nil.mp hnil).1)]
    rw [hgitseg, dropGitSuffix_append_git repo.data, dropSlashSuffix_no_slash repo.data hr2]
  -- the trailing-slash URL
  have hslseg : (repo.data ++ "/".data).takeWhile (fun c => c != '/') = repo.data := by
    have h1 : "/".data = ['/'] := rfl
    rw [h1, takeWhile_append_all _ repo.data ['/'] hallr]
    simp [List.takeWhile_cons]
  have hsl : extractRepoInfo ("https://github.com/" ++ owner ++ "/" ++ repo ++ "/")
      = some ⟨owner, repo⟩ := by
    have hu := https_url_data owner repo "/"
    rw [extractRepoInfo_at _ owner (repo.data ++ "/".data) hu ho ho2
      (by rw [hslseg]; exact hr)]
    rw [hslseg, dropGitSuffix_no_git repo.data hg, dropSlashSuffix_no_slash repo.data hr2]
  exact ⟨hgit.trans hbase.symm, hsl.trans hbase.symm, hbase⟩

/-- Witness for C3 at this repository's own URL. -/
theorem C3_identity_normalization_witness :
    ("vishal4dev" : String).data ≠ []
    ∧ (∀ c ∈ ("vishal4dev" : String).data, c ≠ '/')
    ∧ ("repoChat" : String).data ≠ []
    ∧ (∀ c ∈ ("repoChat" : String).data, c ≠ '/')
    ∧ endsWithL ("repoChat" : String).data ".git".data = false
    ∧ extractRepoInfo "https://github.com/vishal4dev/repoChat.git"
        = extractRepoInfo "https://github.com/vishal4dev/repoChat"
    ∧ extractRepoInfo "https://github.com/vishal4dev/repoChat/"
        = extractRepoInfo "https://github.com/vishal4dev/repoChat"
    ∧ extractRepoInfo "https://github.com/vishal4dev/repoChat"
        = some ⟨"vishal4dev", "repoChat"⟩ := by
  have h := C3_identity_normalization "vishal4dev" "repoChat" (by decide) (by decide)
    (by decide) (by decide) (by decide)
  exact ⟨by decide, by decide, by decide, by decide, by decide, h.1, h.2.1, h.2.2⟩

end RepoChat
